import Mathlib

/-!
Verification of the bigwig-reader library (BigWig/BigBed/2bit/BAM range reader).

This file shallowly embeds the decoding pipeline of the library and proves or
refutes the frozen claims about it.  Buffers are modelled as `List Nat` (one
entry per byte); reads past the end of a buffer yield 0 (in JS a `DataView`
read past the end throws, terminating the decode; all invariants proved below
are independent of the values such reads produce).  JS 32-bit reads are
modelled with explicit two's complement on `Int`; IEEE floats are carried as
their raw 32-bit patterns (no claim inspects a float's numeric value).
-/

/-! ## Byte-level primitives (model of src/util/BinaryParser.ts, little-endian) -/

/-- Byte `i` of a buffer; 0 past the end (see the file comment). -/
def byteAt (data : List Nat) (i : Nat) : Nat := data.getD i 0

/-- `BinaryParser.getUShort` (little-endian 16-bit read). -/
def readU16 (data : List Nat) (p : Nat) : Nat :=
  byteAt data p + 256 * byteAt data (p + 1)

/-- `BinaryParser.getUInt` (little-endian 32-bit read). -/
def readU32 (data : List Nat) (p : Nat) : Nat :=
  byteAt data p + 256 * byteAt data (p + 1) + 65536 * byteAt data (p + 2) +
    16777216 * byteAt data (p + 3)

/-- Two's-complement reinterpretation of a 32-bit pattern, as JS `getInt32`. -/
def toSigned32 (n : Nat) : Int :=
  if n % 4294967296 < 2147483648 then ((n % 4294967296 : Nat) : Int)
  else ((n % 4294967296 : Nat) : Int) - 4294967296

/-- `BinaryParser.getInt` (little-endian signed 32-bit read). -/
def readI32 (data : List Nat) (p : Nat) : Int := toSigned32 (readU32 data p)

/-- JS `String.prototype.substring(a, b)`: both indices are clamped to
`[0, length]` and swapped when out of order. -/
def jsSubstring (s : List Char) (a b : Int) : List Char :=
  let len : Int := s.length
  let a' := (min (max a 0) len).toNat
  let b' := (min (max b 0) len).toNat
  (s.take (max a' b')).drop (min a' b')

/-- JS `String.prototype.substring(a)` (one-argument form). -/
def jsSubstringFrom (s : List Char) (a : Int) : List Char :=
  jsSubstring s a s.length

/-- JS `Array.prototype.slice` / `ArrayBuffer.slice` end index: a negative
index counts from the end, and there is no swapping. -/
def jsSliceTo (l : List Nat) (b : Int) : List Nat :=
  let len : Int := l.length
  let b' := (if b < 0 then max (len + b) 0 else min b len).toNat
  l.take b'

/-! ## 2bit sequence decoding (model of src/bigwig/TwoBitHeaderReader.ts) -/

/-- `SequenceRecord` of TwoBitHeaderReader.ts. -/
structure SequenceRecord where
  dnaSize : Nat
  nBlockCount : Nat
  nBlockStarts : List Nat
  nBlockSizes : List Nat
  maskBlockCount : Nat
  maskBlockStarts : List Nat
  maskBlockSizes : List Nat
  reserved : Nat
  offset : Nat
deriving Repr, DecidableEq

/-- The 2bit alphabet `"TCAG"`. -/
def CHARMAPPING : List Char := ['T', 'C', 'A', 'G']

/-- `getBases`: decode one packed byte into four bases via the precomputed
table `CHARMAPPING[b >> 6] ++ CHARMAPPING[(b >> 4) & 3] ++ ...` (the source's
256-entry table, written pointwise; for byte values 0–255 the two agree). -/
def getBases (b : Nat) : List Char :=
  [CHARMAPPING.getD (b / 64 % 4) 'T', CHARMAPPING.getD (b / 16 % 4) 'T',
   CHARMAPPING.getD (b / 4 % 4) 'T', CHARMAPPING.getD (b % 4) 'T']

/-- One interrupting block `{start, size}` as collected by `loadSequence`. -/
structure TbBlock where
  start : Nat
  size : Nat
deriving Repr, DecidableEq

/-- `rn(i)`: a run of `i` copies of `'N'` (empty for `i ≤ 0`). -/
def rn (k : Int) : List Char := List.replicate k.toNat 'N'

/-- The "find any interrupting blocks of N's" loop of `loadSequence`:
iterate over `(nBlockStarts[i], nBlockSizes[i])` pairs, `break` when the
block starts past `end`, `continue` when it ends before (the adjusted)
`start`.  The two parallel arrays are passed zipped. -/
def collectNBlocks (blocks : List (Nat × Nat)) (start endq : Nat) : List TbBlock :=
  match blocks with
  | [] => []
  | (s, z) :: rest =>
    if s > endq then []
    else if s + z < start then collectNBlocks rest start endq
    else ⟨s, z⟩ :: collectNBlocks rest start endq

/-- The "find any interrupting lower-case mask blocks" loop of `loadSequence`.
Note: faithful to the source, the loop runs over `maskBlockStarts.length` but
its `break`/`continue` conditions test `nBlockStarts[i]` and `nBlockSizes[i]`;
when `i` is past the end of the N-block arrays, the JS comparisons against
`undefined`/`NaN` are false, so the mask block is pushed. -/
def collectMaskBlocksGo (rec : SequenceRecord) (start endq : Nat) :
    Nat → Nat → List TbBlock
  | _, 0 => []
  | i, fuel + 1 =>
    if i < rec.maskBlockStarts.length then
      match rec.nBlockStarts[i]? with
      | some ns =>
        if ns > endq then []
        else
          let skip : Bool := match rec.nBlockSizes[i]? with
            | some nz => decide (ns + nz < start)
            | none => false
          if skip then collectMaskBlocksGo rec start endq (i + 1) fuel
          else ⟨rec.maskBlockStarts.getD i 0, rec.maskBlockSizes.getD i 0⟩ ::
            collectMaskBlocksGo rec start endq (i + 1) fuel
      | none =>
        ⟨rec.maskBlockStarts.getD i 0, rec.maskBlockSizes.getD i 0⟩ ::
          collectMaskBlocksGo rec start endq (i + 1) fuel
    else []

/-- Entry point for the mask-block collection loop (the index runs from 0 and
the loop performs at most `maskBlockStarts.length` iterations, which the
structural fuel accounts for exactly). -/
def collectMaskBlocks (rec : SequenceRecord) (start endq : Nat) : List TbBlock :=
  collectMaskBlocksGo rec start endq 0 rec.maskBlockStarts.length

/-- One step of the "fill in N's" `forEach` of `loadSequence` (`start` is the
already-adjusted start). -/
def fillNBlock (start endq : Int) (cseq : List Char) (i : Nat) (b : TbBlock) : List Char :=
  let blockEnd : Int := (b.start : Int) + b.size
  if i = 0 ∧ (b.start : Int) ≤ start then
    rn ((if blockEnd ≤ endq then blockEnd else endq) - start) ++
      jsSubstringFrom cseq ((if blockEnd < endq then blockEnd else endq) - start)
  else
    jsSubstring cseq 0 ((b.start : Int) - start) ++
      rn ((if blockEnd ≤ endq then blockEnd else endq) - (b.start : Int)) ++
      jsSubstringFrom cseq ((if blockEnd < endq then blockEnd else endq) - start)

/-- One step of the "set lower case" `forEach` of `loadSequence`. -/
def fillMaskBlock (start endq : Int) (cseq : List Char) (i : Nat) (b : TbBlock) : List Char :=
  let blockEnd : Int := (b.start : Int) + b.size
  if i = 0 ∧ (b.start : Int) ≤ start then
    (jsSubstring cseq 0 ((if blockEnd ≤ endq then blockEnd else endq) - start)).map Char.toLower ++
      jsSubstringFrom cseq ((if blockEnd < endq then blockEnd else endq) - start)
  else
    jsSubstring cseq 0 ((b.start : Int) - start) ++
      (jsSubstring cseq ((b.start : Int) - start)
        ((if blockEnd ≤ endq then blockEnd else endq) - start)).map Char.toLower ++
      jsSubstringFrom cseq ((if blockEnd < endq then blockEnd else endq) - start)

/-- `forEach` with element index, as used for the two overlay loops. -/
def applyBlocks (f : List Char → Nat → TbBlock → List Char) (cseq : List Char)
    (i : Nat) : List TbBlock → List Char
  | [] => cseq
  | b :: rest => applyBlocks f (f cseq i b) (i + 1) rest

/-- `loadSequence(dataLoader, header, sequence, start, end)` of
TwoBitHeaderReader.ts.  `file` gives the byte of the underlying 2bit file at
an absolute offset (the data loader).  Faithful details: the source first
replaces `start` by `max(start - 1, 0)`; it fetches
`n = ceil((end - start)/4 + ceil((start % 4)/4))` bytes from offset
`floor(start / 4) + offset` (here written for `start ≤ end`, the only case
the theorems below use), decodes them 4 bases per byte, slices with JS
`substring`, then applies the N-block and mask-block overlays. -/
def loadSequence (file : Nat → Nat) (rec : SequenceRecord) (start0 endq : Nat) : List Char :=
  let start : Nat := start0 - 1
  let nBlocks := collectNBlocks (rec.nBlockStarts.zip rec.nBlockSizes) start endq
  let maskBlocks := collectMaskBlocks rec start endq
  let n : Nat := (endq - start + 3) / 4 + (if start % 4 = 0 then 0 else 1)
  let raw := (List.range n).flatMap (fun j => getBases (file (start / 4 + rec.offset + j)))
  let cseq := jsSubstring raw ((start : Int) % 4) ((start : Int) % 4 + (endq : Int) - (start : Int))
  let afterN := applyBlocks (fillNBlock (start : Int) (endq : Int)) cseq 0 nBlocks
  applyBlocks (fillMaskBlock (start : Int) (endq : Int)) afterN 0 maskBlocks

/-! ## BigWig / BigBed / Zoom block decoding (model of src/index.ts) -/

/-- `chromDict[chromIndex]` where `chromDict` is an array: out-of-range or
negative indices give JS `undefined`, modelled as `""` (no claim inspects the
name). -/
def dictGet (dict : List String) (i : Int) : String :=
  if 0 ≤ i then dict.getD i.toNat "" else ""

/-- A record as pushed by `decodeWigData`.  The source stores
`chr = chromDict[chromIndex]`; the model additionally keeps the numeric
`chromIndex` the decoder parsed and filtered on, and carries the f32 `value`
as its raw bit pattern. -/
structure BigWigDataRec where
  chromIndex : Int
  chr : String
  start : Int
  stop : Int
  value : Nat
deriving Repr, DecidableEq

/-- `startBase` of one wig item: read for BedGraph (type 1) and VariableStep
(type 2), carried over for FixedStep. -/
def wigItemStart (data : List Nat) (pos : Nat) (typ : Nat) (startBase : Int) : Int :=
  if typ = 1 then readI32 data pos else if typ = 2 then readI32 data pos else startBase

/-- `endBase` of one wig item: read for BedGraph, `start + itemSpan`
otherwise. -/
def wigItemStop (data : List Nat) (pos : Nat) (typ : Nat) (itemSpan startBase : Int) : Int :=
  if typ = 1 then readI32 data (pos + 4)
  else if typ = 2 then readI32 data pos + itemSpan
  else startBase + itemSpan

/-- `value` (f32 bit pattern) of one wig item. -/
def wigItemValue (data : List Nat) (pos : Nat) (typ : Nat) : Nat :=
  if typ = 1 then readU32 data (pos + 8)
  else if typ = 2 then readU32 data (pos + 4)
  else readU32 data pos

/-- Parser position after one wig item (12, 8 or 4 bytes). -/
def wigItemNextPos (pos : Nat) (typ : Nat) : Nat :=
  if typ = 1 then pos + 12 else if typ = 2 then pos + 8 else pos + 4

/-- The item loop of `decodeWigData`: `itemCount` iterations, each reading a
BedGraph (type 1), VariableStep (type 2) or FixedStep (otherwise) item,
stopping once past the query end, skipping items ending before the query
start, and bumping `startBase` by `itemStep` after each FixedStep item. -/
def wigLoop (data : List Nat) (fsc fsb fec feb : Int) (chromIndex : Int) (chrom : String)
    (itemStep itemSpan : Int) (typ : Nat) :
    Nat → Nat → Int → Int → List BigWigDataRec
  | 0, _, _, _ => []
  | count + 1, pos, startBase, _endBase =>
    let sb : Int := wigItemStart data pos typ startBase
    let eb : Int := wigItemStop data pos typ itemSpan startBase
    if chromIndex > fec ∨ (chromIndex = fec ∧ sb ≥ feb) then []
    else
      let rest := wigLoop data fsc fsb fec feb chromIndex chrom itemStep itemSpan typ
        count (wigItemNextPos pos typ) (if typ ≠ 1 ∧ typ ≠ 2 then sb + itemStep else sb) eb
      if chromIndex < fsc ∨ (chromIndex = fsc ∧ eb < fsb) then rest
      else ⟨chromIndex, chrom, sb, eb, wigItemValue data pos typ⟩ :: rest

/-- `decodeWigData(data, filterStartChromIndex, filterStartBase,
filterEndChromIndex, filterEndBase, chromDict)`: parse the 24-byte block
header, drop the block when its `chromIndex` is outside the query's
chromosome range, then run the item loop. -/
def decodeWigData (data : List Nat) (fsc fsb fec feb : Int) (chromDict : List String) :
    List BigWigDataRec :=
  let chromIndex := readI32 data 0
  let startBase := readI32 data 4
  let endBase := readI32 data 8
  let itemStep := readI32 data 12
  let itemSpan := readI32 data 16
  let typ := byteAt data 20
  let itemCount := readU16 data 22
  if chromIndex < fsc ∨ chromIndex > fec then []
  else wigLoop data fsc fsb fec feb chromIndex (dictGet chromDict chromIndex)
    itemStep itemSpan typ itemCount 24 startBase endBase

/-- `BinaryParser.getString()` with no length bound, as used by
`decodeBedData` for the NUL-terminated `rest` field: bytes are consumed one
at a time until a 0 byte (which is consumed but not appended); if the buffer
ends first the model stops there (JS would throw). -/
def getStringNT (data : List Nat) (pos : Nat) : List Char × Nat :=
  let rest := data.drop pos
  let chars := rest.takeWhile (fun b => b ≠ 0)
  let consumed := if chars.length < rest.length then chars.length + 1 else chars.length
  (chars.map Char.ofNat, pos + consumed)

/-- A record as produced by `decodeBedData`: the source feeds
`(chrom, startBase, endBase, rest)` to the caller-supplied `restParser`; the
model keeps those parsed values (plus the numeric `chromIndex` used by the
filter) as the emitted record. -/
structure BigBedDataRec where
  chromIndex : Int
  chr : String
  start : Int
  stop : Int
  rest : List Char
deriving Repr, DecidableEq

/-- The record loop of `decodeBedData`: run while at least
`minSize = 3*4 + 1` bytes remain; each record is `(chromId, start, end,
rest‑NUL)`; skip records ending before the query start, stop at the first
record starting at/after the query end.  Structural fuel: each iteration
consumes ≥ 13 bytes, so `data.length` iterations always suffice. -/
def bedLoop (data : List Nat) (fsc fsb fec feb : Int) (chromDict : List String) :
    Nat → Nat → List BigBedDataRec
  | _, 0 => []
  | pos, fuel + 1 =>
    if data.length - pos ≥ 13 then
      let chromIndex := readI32 data pos
      let startBase := readI32 data (pos + 4)
      let endBase := readI32 data (pos + 8)
      let restP := getStringNT data (pos + 12)
      if chromIndex < fsc ∨ (chromIndex = fsc ∧ endBase < fsb) then
        bedLoop data fsc fsb fec feb chromDict restP.2 fuel
      else if chromIndex > fec ∨ (chromIndex = fec ∧ startBase ≥ feb) then []
      else ⟨chromIndex, dictGet chromDict chromIndex, startBase, endBase, restP.1⟩ ::
        bedLoop data fsc fsb fec feb chromDict restP.2 fuel
    else []

/-- `decodeBedData(restParser)(data, ...)` of src/index.ts. -/
def decodeBedData (data : List Nat) (fsc fsb fec feb : Int) (chromDict : List String) :
    List BigBedDataRec :=
  bedLoop data fsc fsb fec feb chromDict 0 data.length

/-- A record as pushed by `decodeZoomData` (f32 fields as raw bit patterns,
`stop` models the source's `end`). -/
structure BigZoomDataRec where
  chromIndex : Int
  chr : String
  start : Int
  stop : Int
  validCount : Int
  minVal : Nat
  maxVal : Nat
  sumData : Nat
  sumSquares : Nat
deriving Repr, DecidableEq

/-- The 32-byte zoom record beginning at `pos`. -/
def parseZoomRecord (data : List Nat) (chromDict : List String) (pos : Nat) :
    BigZoomDataRec :=
  let chromIndex := readI32 data pos
  ⟨chromIndex, dictGet chromDict chromIndex, readI32 data (pos + 4), readI32 data (pos + 8),
    readI32 data (pos + 12), readU32 data (pos + 16), readU32 data (pos + 20),
    readU32 data (pos + 24), readU32 data (pos + 28)⟩

/-- The record loop of `decodeZoomData`: faithful to the source, it runs
while `remLength() > minSize` with `minSize = 8 * 4` — strictly *more* than
32 bytes must remain for a record to be read.  Each iteration consumes
exactly 32 bytes and applies the skip-before / stop-after filter.
Structural fuel: `data.length` iterations always suffice. -/
def zoomLoop (data : List Nat) (fsc fsb fec feb : Int) (chromDict : List String) :
    Nat → Nat → List BigZoomDataRec
  | _, 0 => []
  | pos, fuel + 1 =>
    if data.length - pos > 32 then
      let r := parseZoomRecord data chromDict pos
      if r.chromIndex < fsc ∨ (r.chromIndex = fsc ∧ r.stop < fsb) then
        zoomLoop data fsc fsb fec feb chromDict (pos + 32) fuel
      else if r.chromIndex > fec ∨ (r.chromIndex = fec ∧ r.start ≥ feb) then []
      else r :: zoomLoop data fsc fsb fec feb chromDict (pos + 32) fuel
    else []

/-- `decodeZoomData(data, ...)` of src/index.ts. -/
def decodeZoomData (data : List Nat) (fsc fsb fec feb : Int) (chromDict : List String) :
    List BigZoomDataRec :=
  zoomLoop data fsc fsb fec feb chromDict 0 data.length

/-- Modelled from the spec: "repeatedly read 32-byte records …; apply the
same skip-before / stop-after filter" — i.e. a record is read whenever a
complete 32-byte record remains (`remLength() ≥ 32`), so a block whose
length is an exact multiple of 32 has its final record read and filtered
like the others.  Used only to compare against `decodeZoomData`. -/
def zoomLoopSpec (data : List Nat) (fsc fsb fec feb : Int) (chromDict : List String) :
    Nat → Nat → List BigZoomDataRec
  | _, 0 => []
  | pos, fuel + 1 =>
    if data.length - pos ≥ 32 then
      let r := parseZoomRecord data chromDict pos
      if r.chromIndex < fsc ∨ (r.chromIndex = fsc ∧ r.stop < fsb) then
        zoomLoopSpec data fsc fsb fec feb chromDict (pos + 32) fuel
      else if r.chromIndex > fec ∨ (r.chromIndex = fec ∧ r.start ≥ feb) then []
      else r :: zoomLoopSpec data fsc fsb fec feb chromDict (pos + 32) fuel
    else []

/-- Spec-side `decodeZoomData` (see `zoomLoopSpec`). -/
def decodeZoomDataSpec (data : List Nat) (fsc fsb fec feb : Int) (chromDict : List String) :
    List BigZoomDataRec :=
  zoomLoopSpec data fsc fsb fec feb chromDict 0 data.length

/-- The sequence of complete 32-byte records the source's zoom loop actually
visits, read off positions `0, 32, 64, …`. -/
def parseZoomRecords (data : List Nat) (chromDict : List String) (count : Nat) :
    List BigZoomDataRec :=
  (List.range count).map (fun i => parseZoomRecord data chromDict (32 * i))

/-- Number of iterations the source's zoom loop performs on a block of
`len` bytes (it reads a record only while strictly more than 32 bytes
remain). -/
def numZoomIter (len : Nat) : Nat := if len ≥ 33 then (len - 33) / 32 + 1 else 0

/-- The skip-before / stop-after interval filter of the zoom decoder,
separated from parsing. -/
def zoomFilterRun (fsc fsb fec feb : Int) : List BigZoomDataRec → List BigZoomDataRec
  | [] => []
  | r :: rest =>
    if r.chromIndex < fsc ∨ (r.chromIndex = fsc ∧ r.stop < fsb) then
      zoomFilterRun fsc fsb fec feb rest
    else if r.chromIndex > fec ∨ (r.chromIndex = fec ∧ r.start ≥ feb) then []
    else r :: zoomFilterRun fsc fsb fec feb rest

/-! ## BAI index (model of src/bam/BamIndexReader.ts) -/

/-- JS ToInt32, as applied by the `>>` operator. -/
def toInt32 (n : Nat) : Int := toSigned32 n

/-- The inclusive integer range `a, a+1, …, b` pushed by a
`for (k = a; k <= b; k++)` loop (empty when `b < a`). -/
def intRange (a b : Int) : List Int :=
  (List.range (b + 1 - a).toNat).map (fun i : Nat => a + (i : Int))

/-- `reg2bins(start, end)`: `[0]`, then for each of the five levels the bins
`o + (start >> s) .. o + (end >> s)` after capping `end` at `2^29` and
decrementing it.  JS `>>` converts its operand to int32 and shifts
arithmetically, i.e. floor-divides by `2^s`. -/
def reg2bins (start endq : Nat) : List Int :=
  let e0 : Int := if endq ≥ 536870912 then 536870912 else (endq : Int)
  let e : Int := e0 - 1
  let sh (s : Nat) : Int := Int.fdiv (toInt32 start) (2 ^ s)
  let eh (s : Nat) : Int := Int.fdiv e (2 ^ s)
  [0] ++ intRange (1 + sh 26) (1 + eh 26) ++ intRange (9 + sh 23) (9 + eh 23) ++
    intRange (73 + sh 20) (73 + eh 20) ++ intRange (585 + sh 17) (585 + eh 17) ++
    intRange (4681 + sh 14) (4681 + eh 14)

/-- `VirtualOffset` (blockPosition u48, dataPosition u16). -/
structure VirtualOffset where
  blockPosition : Nat
  dataPosition : Nat
deriving Repr, DecidableEq

/-- `Chunk`: a pair of virtual offsets (`stop` models the source's `end`
field, a Lean keyword). -/
structure Chunk where
  start : VirtualOffset
  stop : VirtualOffset
deriving Repr, DecidableEq

/-- `RawChunk`: the two 8-byte encodings of a chunk's virtual offsets. -/
structure RawChunk where
  start : List Nat
  stop : List Nat
deriving Repr, DecidableEq

/-- `inflateVirtualOffset(raw)`: `dataPosition = raw[1] << 8 | raw[0]`,
`blockPosition = raw[7]·2^40 + raw[6]·2^32 + raw[5]·2^24 + raw[4]·2^16 +
raw[3]·2^8 + raw[2]`. -/
def inflateVirtualOffset (raw : List Nat) : VirtualOffset :=
  ⟨byteAt raw 7 * 1099511627776 + byteAt raw 6 * 4294967296 + byteAt raw 5 * 16777216 +
      byteAt raw 4 * 65536 + byteAt raw 3 * 256 + byteAt raw 2,
    Nat.lor (Nat.shiftLeft (byteAt raw 1) 8) (byteAt raw 0)⟩

/-- `inflateChunk`. -/
def inflateChunk (raw : RawChunk) : Chunk :=
  ⟨inflateVirtualOffset raw.start, inflateVirtualOffset raw.stop⟩

/-- `isVOLessThan`: lexicographic order on (blockPosition, dataPosition). -/
def isVOLessThan (first second : VirtualOffset) : Bool :=
  decide (first.blockPosition < second.blockPosition) ||
    (decide (first.blockPosition = second.blockPosition) &&
      decide (first.dataPosition < second.dataPosition))

/-- The sort comparator of `optimizeChunks` as a ≤-test: the JS comparator
returns `c0.start.blockPosition - c1.start.blockPosition`, breaking ties by
`dataPosition`, so `c0` sorts no later than `c1` iff this is true. -/
def chunkStartLe (c0 c1 : Chunk) : Bool :=
  decide (c0.start.blockPosition < c1.start.blockPosition) ||
    (decide (c0.start.blockPosition = c1.start.blockPosition) &&
      decide (c0.start.dataPosition ≤ c1.start.dataPosition))

/-- `chunkStartLe` as a relation (the order `optimizeChunks` sorts by). -/
def chunkLeRel (c0 c1 : Chunk) : Prop := chunkStartLe c0 c1 = true

instance : DecidableRel chunkLeRel :=
  fun c0 c1 => inferInstanceAs (Decidable (chunkStartLe c0 c1 = true))

instance : IsTotal Chunk chunkLeRel := by
  constructor
  intro a b
  simp only [chunkLeRel, chunkStartLe, Bool.or_eq_true, Bool.and_eq_true,
    decide_eq_true_eq]
  omega

instance : IsTrans Chunk chunkLeRel := by
  constructor
  intro a b c
  simp only [chunkLeRel, chunkStartLe, Bool.or_eq_true, Bool.and_eq_true,
    decide_eq_true_eq]
  omega

/-- The pair-wise non-coalescable relation of the 65 000-byte rule: the next
chunk starts at least 65 000 compressed bytes after the previous chunk's
end. -/
def chunkGap (a b : Chunk) : Prop :=
  65000 ≤ (b.start.blockPosition : Int) - (a.stop.blockPosition : Int)

instance : DecidableRel chunkGap := fun a b =>
  inferInstanceAs (Decidable
    (65000 ≤ (b.start.blockPosition : Int) - (a.stop.blockPosition : Int)))

/-- The merge loop of `optimizeChunks`.  `acc` holds the merged chunks in
reverse push order; its head is `currentMergedChunk` (the mutation
`currentMergedChunk.end = chunk.end` acts on the object last pushed;
`currentMergedChunk` is `undefined` exactly when nothing has been pushed,
i.e. `acc = []`).  When it is `undefined` the source pushes the chunk and
then *falls through* to the 65 000-byte merge test comparing the chunk with
itself — the `[]` case below spells that fall-through out with
`cur := chunk, tail := []`. -/
def optLoop (lowest : Option VirtualOffset) : List Chunk → List Chunk → List Chunk
  | [], acc => acc.reverse
  | chunk :: rest, acc =>
    if (match lowest with
        | some lo => isVOLessThan chunk.stop lo
        | none => false) then
      optLoop lowest rest acc
    else
      match acc with
      | [] =>
        if (chunk.start.blockPosition : Int) - (chunk.stop.blockPosition : Int) < 65000 then
          optLoop lowest rest
            ((if isVOLessThan chunk.stop chunk.stop then { chunk with stop := chunk.stop }
              else chunk) :: [])
        else optLoop lowest rest (chunk :: [chunk])
      | cur :: tail =>
        if (chunk.start.blockPosition : Int) - (cur.stop.blockPosition : Int) < 65000 then
          optLoop lowest rest
            ((if isVOLessThan cur.stop chunk.stop then { cur with stop := chunk.stop }
              else cur) :: tail)
        else optLoop lowest rest (chunk :: cur :: tail)

/-- `optimizeChunks(chunks, lowest)`: JS `Array.prototype.sort` is stable, so
its result is the unique stable order under the comparator, which
`List.insertionSort` computes; then run the merge loop. -/
def optimizeChunks (chunks : List Chunk) (lowest : Option VirtualOffset) : List Chunk :=
  if chunks.length = 0 then []
  else optLoop lowest (chunks.insertionSort chunkLeRel) []

/-- `BamIndexRefData`: bin index (the JS object modelled as an association
list — `for … in` order is irrelevant because `optimizeChunks` re-sorts) and
linear index of raw 8-byte virtual offsets. -/
structure BamIndexRefData where
  binIndex : List (Nat × List RawChunk)
  linearIndex : List (List Nat)

/-- The linear-index scan of `blocksForRange`:
`for (i = minLin; i <= maxLin; i++)`, keeping the smallest inflated virtual
offset.  `linearIndex[i]` for `i` outside the array is JS `undefined` and
`inflateVirtualOffset(undefined)` throws, modelled as `none`. -/
def lowestLoop (lin : List (List Nat)) : Int → Nat → Option VirtualOffset →
    Option (Option VirtualOffset)
  | _, 0, lowest => some lowest
  | i, cnt + 1, lowest =>
    if 0 ≤ i ∧ i < (lin.length : Int) then
      let off := inflateVirtualOffset (lin.getD i.toNat [])
      let lowest' := match lowest with
        | none => some off
        | some lo => if isVOLessThan off lo then some off else some lo
      lowestLoop lin (i + 1) cnt lowest'
    else none

/-- `blocksForRange(indexData, start, end)`: collect the chunks of all bins
listed by `reg2bins`, compute the linear-index lower bound over indices
`minLin = min(start >> 14, L-1)` to `maxLin = max(end >> 14, L-1)` (a scan
that throws — `none` — whenever it touches an index outside the array), and
return `optimizeChunks` of the collected chunks. -/
def blocksForRange (indexData : BamIndexRefData) (start endq : Nat) :
    Option (List Chunk) :=
  let overlappingBins := reg2bins start endq
  let allChunks := indexData.binIndex.foldl
    (fun acc p =>
      if overlappingBins.contains (p.1 : Int) then acc ++ p.2.map inflateChunk else acc) []
  let L : Int := indexData.linearIndex.length
  let minLin : Int := min (Int.fdiv (toInt32 start) 16384) (L - 1)
  let maxLin : Int := max (Int.fdiv (toInt32 endq) 16384) (L - 1)
  match lowestLoop indexData.linearIndex minLin (maxLin + 1 - minLin).toNat none with
  | none => none
  | some lowest => some (optimizeChunks allChunks lowest)

/-! ## BAM record decoding (model of src/bam/BamReader.ts) -/

/-- `CIGAR_DECODER = "MIDNSHP=X"`. -/
def CIGAR_DECODER : List Char := ['M', 'I', 'D', 'N', 'S', 'H', 'P', '=', 'X']

/-- `SEQ_CONSUMING_CIGAR_OPS = "MIS=X"`. -/
def SEQ_CONSUMING_CIGAR_OPS : List Char := ['M', 'I', 'S', '=', 'X']

/-- `REF_CONSUMING_CIGAR_OPS = "MDN=X"`. -/
def REF_CONSUMING_CIGAR_OPS : List Char := ['M', 'D', 'N', '=', 'X']

/-- `SEQ_DECODER = "=ACMGRSVTWYHKDBN"`. -/
def SEQ_DECODER : List Char :=
  ['=', 'A', 'C', 'M', 'G', 'R', 'S', 'V', 'T', 'W', 'Y', 'H', 'K', 'D', 'B', 'N']

/-- JS `String.prototype.charAt`: a one-character string, or `""` when the
index is out of range. -/
def charAtStr (s : List Char) (i : Nat) : List Char :=
  match s[i]? with
  | some c => [c]
  | none => []

/-- JS `String.prototype.includes` restricted to the arguments that occur
here (`charAt` results, length ≤ 1): the empty string is a substring of
everything. -/
def strIncludes (s : List Char) (sub : List Char) : Bool :=
  match sub with
  | [] => true
  | c :: _ => s.contains c

/-- `BinaryParser.getString(len)`: bytes are consumed one at a time; a 0 byte
stops (and is consumed without being appended); after appending, the loop
breaks once `len` characters were collected — but only when `len` is truthy,
so `len = 0` reads to the next NUL exactly like `getString()`.  If the
buffer ends first the model stops there (JS would throw). -/
def getStringJS (data : List Nat) (pos len : Nat) : List Char × Nat :=
  if len = 0 then getStringNT data pos
  else
    let pfx := (data.drop pos).take len
    let chars := pfx.takeWhile (fun b => b ≠ 0)
    let consumed := if chars.length = len then len
      else if chars.length < pfx.length then chars.length + 1 else chars.length
    (chars.map Char.ofNat, pos + consumed)

/-- One CIGAR operation (`op` is the `charAt` result, `""` for the raw codes
9–15 that `"MIDNSHP=X"` does not cover). -/
structure CigarOp where
  opLen : Int
  op : List Char
  seqOffset : Int
deriving Repr, DecidableEq

/-- The CIGAR loop of `readBamFeatures`: `numCigarOps` 32-bit reads; each op
records the running `seqOffset`; ops in `"MIS=X"` advance `seqOffset`, ops
in `"MDN=X"` advance `lengthOnRef`.  JS `rawCigar >> 4` converts to int32
first.  Returns (ops, seqOffset, lengthOnRef, position after the loop). -/
def buildCigar (data : List Nat) : Nat → Nat → Int → Int →
    List CigarOp × Int × Int × Nat
  | pos, 0, seqOffset, lengthOnRef => ([], seqOffset, lengthOnRef, pos)
  | pos, n + 1, seqOffset, lengthOnRef =>
    let raw := readU32 data pos
    let opLen : Int := Int.fdiv (toSigned32 raw) 16
    let op := charAtStr CIGAR_DECODER (raw % 16)
    let seqOffset' := if strIncludes SEQ_CONSUMING_CIGAR_OPS op then seqOffset + opLen
      else seqOffset
    let lengthOnRef' := if strIncludes REF_CONSUMING_CIGAR_OPS op then lengthOnRef + opLen
      else lengthOnRef
    let rest := buildCigar data (pos + 4) n seqOffset' lengthOnRef'
    (⟨opLen, op, seqOffset⟩ :: rest.1, rest.2.1, rest.2.2.1, rest.2.2.2)

/-- Iteration count of the sequence-decoding loop
`for (let i = 0; i < seqBytes; i++)` where `seqBytes = (seqLen + 1) / 2` is
computed by JS *real* division: the body runs for every natural `i` with
`i < (seqLen+1)/2` in ℚ, i.e. with `2·i < seqLen + 1`, which is
`((seqLen + 2).toNat) / 2` iterations (e.g. 3 iterations for `seqLen = 4`,
where `seqBytes = 2.5`). -/
def seqLoopCount (seqLen : Int) : Nat := (seqLen + 2).toNat / 2

/-- Every field parsed from one BAM alignment record starting at byte `p`,
together with the derived buffer positions (`cigarPos` after the read name,
`seqPos` after the CIGAR block, `phredPos` after the packed sequence). -/
structure BamRecordParse where
  blockSize : Int
  blockEnd : Int
  blockRefID : Int
  pos : Int
  readNameLen : Nat
  mappingQuality : Nat
  bin : Nat
  numCigarOps : Nat
  flags : Nat
  seqLen : Int
  mateChrIdx : Int
  matePos : Int
  templateLen : Int
  readName : List Char
  cigarPos : Nat
  cigarOps : List CigarOp
  lengthOnRef : Int
  seqPos : Nat
  seq : List Char
  phredPos : Nat
  phredQualities : List Nat
deriving Repr, DecidableEq

/-- Decode one alignment record at position `p`, following the source's read
order: `blockSize` (i32), fixed fields, `readName` (`getString(readNameLen)`),
CIGAR, the packed sequence (`(seqByte & 0xf0) >> 4` and `seqByte & 0x0f`
indexing `SEQ_DECODER`, truncated by `slice(0, seqLen)`), then `seqLen`
phred bytes. -/
def decodeBamRecord (data : List Nat) (p : Nat) : BamRecordParse :=
  let blockSize := readI32 data p
  let blockEnd : Int := ((p : Int) + 4) + blockSize
  let blockRefID := readI32 data (p + 4)
  let posv := readI32 data (p + 8)
  let readNameLen := byteAt data (p + 12)
  let mappingQuality := byteAt data (p + 13)
  let bin := readU16 data (p + 14)
  let numCigarOps := readU16 data (p + 16)
  let flags := readU16 data (p + 18)
  let seqLen := readI32 data (p + 20)
  let mateChrIdx := readI32 data (p + 24)
  let matePos := readI32 data (p + 28)
  let templateLen := readI32 data (p + 32)
  let nameP := getStringJS data (p + 36) readNameLen
  let cig := buildCigar data nameP.2 numCigarOps 0 0
  let seqPos := cig.2.2.2
  let seqChars := (List.range (seqLoopCount seqLen)).flatMap
    (fun i =>
      let b := byteAt data (seqPos + i)
      charAtStr SEQ_DECODER (b / 16) ++ charAtStr SEQ_DECODER (b % 16))
  let seq := seqChars.take seqLen.toNat
  let phredPos := seqPos + seqLoopCount seqLen
  let phred := (List.range seqLen.toNat).map (fun i => byteAt data (phredPos + i))
  ⟨blockSize, blockEnd, blockRefID, posv, readNameLen, mappingQuality, bin, numCigarOps,
    flags, seqLen, mateChrIdx, matePos, templateLen, nameP.1, nameP.2, cig.1, cig.2.2.1,
    seqPos, seq, phredPos, phred⟩

/-- `BamAlignment` as pushed by `readBamFeatures`. -/
structure BamAlignment where
  chr : String
  start : Int
  flags : Nat
  strand : Bool
  readName : List Char
  cigarOps : List CigarOp
  templateLength : Int
  mappingQuality : Nat
  seq : List Char
  phredQualities : List Nat
  lengthOnRef : Int
deriving Repr, DecidableEq

/-- Build the pushed alignment from a parsed record
(`strand = !isFlagged(flags, READ_STRAND)` with `READ_STRAND = 0x10`). -/
def mkAlignment (chr : String) (r : BamRecordParse) : BamAlignment :=
  ⟨chr, r.pos, r.flags, decide (Nat.land r.flags 16 = 0), r.readName, r.cigarOps,
    r.templateLen, r.mappingQuality, r.seq, r.phredQualities, r.lengthOnRef⟩

/-- The record loop of `readBamFeatures`: while `position < byteLength`, read
`blockSize` and break when `blockSize + position > byteLength`; skip records
that are unmapped, on the wrong reference, or outside the query (jumping to
`blockEnd`); otherwise decode and emit, then jump to `blockEnd`.  The loop
has no structural bound (a negative `blockSize` moves the position
backwards), so the model carries fuel and returns `none` on exhaustion. -/
def readBamFeaturesGo (data : List Nat) (refId : Int) (chr : String) (bpStart bpEnd : Int) :
    Nat → Nat → Option (List BamAlignment)
  | 0, _ => none
  | fuel + 1, p =>
    if p < data.length then
      let r := decodeBamRecord data p
      if r.blockSize + ((p : Int) + 4) > (data.length : Int) then some []
      else if r.blockRefID = -1 ∨ refId ≠ r.blockRefID ∨ r.pos > bpEnd ∨
          r.pos + r.seqLen < bpStart then
        readBamFeaturesGo data refId chr bpStart bpEnd fuel r.blockEnd.toNat
      else
        (readBamFeaturesGo data refId chr bpStart bpEnd fuel r.blockEnd.toNat).map
          (fun rest => mkAlignment chr r :: rest)
    else some []

/-- `readBamFeatures(blocksData, refId, chr, bpStart, bpEnd)`.  Fuel
`byteLength / 4 + 1` suffices whenever every `blockSize` encountered is
non-negative (each iteration then advances the position by at least 4). -/
def readBamFeatures (data : List Nat) (refId : Int) (chr : String) (bpStart bpEnd : Int) :
    Option (List BamAlignment) :=
  readBamFeaturesGo data refId chr bpStart bpEnd (data.length / 4 + 1) 0

/-- Record head positions visited by the `readBamFeatures` loop:
`headAt 0 = 0` and each record at `p` is followed by one at
`p + 4 + blockSize(p)` (clamped at 0, where JS would instead fault). -/
def headAt (data : List Nat) : Nat → Nat
  | 0 => 0
  | k + 1 => (((headAt data k : Int) + 4) + readI32 data (headAt data k)).toNat

/-! ## BGZF decompression and readBam (model of src/bam/Bgzf.ts, BamReader.ts) -/

/-- The observable behaviour of one `pako.Inflate().push(remainingInput, 2)`
call: the inflated bytes of the first gzip member, the bytes consumed
(`strm.next_in`) and the bytes left (`strm.avail_in`).  `bgzfUnzip` is
parametric in this function — the claims under study are about the
surrounding orchestration, not about DEFLATE itself. -/
structure InflateResult where
  result : List Nat
  nextIn : Nat
  availIn : Nat

/-- Replace the last element of a list of blocks. -/
def updateLast : List (List Nat) → (List Nat → List Nat) → List (List Nat)
  | [], _ => []
  | [x], f => [f x]
  | x :: xs, f => x :: updateLast xs f

/-- The do-while loop of `bgzfUnzip`: inflate one member from the current
position and append it; when a chunk is given, trim
`chunk.start.dataPosition` bytes off the first block, and once the member
offset reaches `chunk.end.blockPosition` trim the last block to
`chunk.end.dataPosition + 1` (minus the already-trimmed start when both ends
share a member) and stop; otherwise advance by `next_in` and continue while
`avail_in` is non-zero.  The source loop has no iteration bound, so the
model carries fuel (an inflate that consumes at least one byte per call
never exhausts `inputData.length + 1`). -/
def bgzfUnzipGo (inflate : List Nat → InflateResult) (inputData : List Nat)
    (chunk : Option Chunk) (fileStartingOffset : Nat) :
    Nat → Nat → List (List Nat) → List (List Nat)
  | 0, _, blocks => blocks
  | fuel + 1, pos, blocks =>
    let r := inflate (inputData.drop pos)
    let blocks1 := blocks ++ [r.result]
    match chunk with
    | some ch =>
      let blocks2 := if blocks1.length = 1 ∧ ch.start.dataPosition ≠ 0 then
          [(blocks1.getD 0 []).drop ch.start.dataPosition]
        else blocks1
      if fileStartingOffset + pos ≥ ch.stop.blockPosition then
        let newEnd : Int := if ch.stop.blockPosition = ch.start.blockPosition then
            ((ch.stop.dataPosition : Int) - (ch.start.dataPosition : Int)) + 1
          else (ch.stop.dataPosition : Int) + 1
        updateLast blocks2 (fun l => jsSliceTo l newEnd)
      else if r.availIn ≠ 0 then
        bgzfUnzipGo inflate inputData chunk fileStartingOffset fuel (pos + r.nextIn) blocks2
      else blocks2
    | none =>
      if r.availIn ≠ 0 then
        bgzfUnzipGo inflate inputData chunk fileStartingOffset fuel (pos + r.nextIn) blocks1
      else blocks1

/-- `bgzfUnzip(inputData, chunk?)`: run the member loop and concatenate the
decompressed blocks (`mergedTypedArrays`). -/
def bgzfUnzip (inflate : List Nat → InflateResult) (inputData : List Nat)
    (chunk : Option Chunk) : List Nat :=
  (bgzfUnzipGo inflate inputData chunk
    (match chunk with
     | some c => c.start.blockPosition
     | none => 0)
    (inputData.length + 1) 0 []).flatten

/-- The per-chunk loop of `readBam`: for each chunk fetch
`bufSize = chunk.end.blockPosition + (1 << 16) - chunk.start.blockPosition`
bytes at `chunk.start.blockPosition`, call `bgzfUnzip(chunkBytes)` — the
chunk is *not* passed — slice off `chunk.start.dataPosition` leading bytes,
decode alignments, and append them.  `load` models
`bamDataLoader.load(offset, size)`. -/
def readBamGo (load : Nat → Nat → List Nat) (inflate : List Nat → InflateResult)
    (refId : Int) (chr : String) (start stop : Int) :
    List Chunk → List BamAlignment → Option (List BamAlignment)
  | [], acc => some acc
  | chunk :: rest, acc =>
    let bufSize := chunk.stop.blockPosition + 65536 - chunk.start.blockPosition
    let chunkBytes := load chunk.start.blockPosition bufSize
    let unzipped := bgzfUnzip inflate chunkBytes none
    match readBamFeatures (unzipped.drop chunk.start.dataPosition) refId chr start stop with
    | none => none
    | some aligns => readBamGo load inflate refId chr start stop rest (acc ++ aligns)

/-- `readBam(bamDataLoader, chunks, refId, chr, start, end)`. -/
def readBam (load : Nat → Nat → List Nat) (inflate : List Nat → InflateResult)
    (chunks : List Chunk) (refId : Int) (chr : String) (start stop : Int) :
    Option (List BamAlignment) :=
  readBamGo load inflate refId chr start stop chunks []

/-- Modelled from the spec: "For each Chunk returned by BaiIndex: fetch bytes
`[chunk.start.blockPos, chunk.end.blockPos + 65 536)`; BGZF-decompress with
the chunk passed as trim hints; slice off `chunk.start.dataPos` leading
bytes."  Identical to `readBamGo` except that the chunk *is* passed to
`bgzfUnzip`.  Used only to compare against `readBam`. -/
def readBamClaimedGo (load : Nat → Nat → List Nat) (inflate : List Nat → InflateResult)
    (refId : Int) (chr : String) (start stop : Int) :
    List Chunk → List BamAlignment → Option (List BamAlignment)
  | [], acc => some acc
  | chunk :: rest, acc =>
    let bufSize := chunk.stop.blockPosition + 65536 - chunk.start.blockPosition
    let chunkBytes := load chunk.start.blockPosition bufSize
    let unzipped := bgzfUnzip inflate chunkBytes (some chunk)
    match readBamFeatures (unzipped.drop chunk.start.dataPosition) refId chr start stop with
    | none => none
    | some aligns => readBamClaimedGo load inflate refId chr start stop rest (acc ++ aligns)

/-- Spec-side `readBam` (see `readBamClaimedGo`). -/
def readBamClaimed (load : Nat → Nat → List Nat) (inflate : List Nat → InflateResult)
    (chunks : List Chunk) (refId : Int) (chr : String) (start stop : Int) :
    Option (List BamAlignment) :=
  readBamClaimedGo load inflate refId chr start stop chunks []

/-- The per-chunk composition `readBam` implements, written chunk by chunk:
fetch the bytes `[c.start.blockPosition, c.stop.blockPosition + 65536)`,
BGZF-decompress them with no trim hints, drop `c.start.dataPosition` leading
bytes, decode alignments, and concatenate over the chunk list. -/
def readBamPerChunk (load : Nat → Nat → List Nat) (inflate : List Nat → InflateResult)
    (refId : Int) (chr : String) (start stop : Int) :
    List Chunk → Option (List BamAlignment)
  | [] => some []
  | c :: rest =>
    match readBamFeatures ((bgzfUnzip inflate
        (load c.start.blockPosition (c.stop.blockPosition + 65536 - c.start.blockPosition))
        none).drop c.start.dataPosition) refId chr start stop,
      readBamPerChunk load inflate refId chr start stop rest with
    | some aligns, some more => some (aligns ++ more)
    | _, _ => none

/-! ## BufferedDataLoader (model of the loader in src, non-streaming path) -/

/-- The distinguished error kinds thrown by data loaders
(`OutOfRangeError`, `IOError`, and anything else). -/
inductive DLError where
  | outOfRange : DLError
  | ioError : DLError
  | other : Nat → DLError
deriving Repr, DecidableEq

/-- `LoaderBuffer` (non-streaming: `data` and `start`). -/
structure LoaderBuffer where
  data : List Nat
  startPos : Nat
deriving Repr, DecidableEq

/-- JS `ArrayBuffer.slice(a, b)`: negative indices count from the end, both
are clamped, and an empty result is produced when they cross. -/
def jsSlice (l : List Nat) (a b : Int) : List Nat :=
  let len : Int := l.length
  let a' := (if a < 0 then max (len + a) 0 else min a len).toNat
  let b' := (if b < 0 then max (len + b) 0 else min b len).toNat
  (l.take b').drop a'

/-- `BufferedDataLoader.loadDataIntoBuffer(start)`: try the sized load; on
`OutOfRangeError` retry once with no size bound (errors of the retry are not
caught); rethrow anything else. -/
def loadDataIntoBuffer (loader : Nat → Option Nat → Except DLError (List Nat))
    (bufferSize start : Nat) : Except DLError LoaderBuffer :=
  match loader start (some bufferSize) with
  | .ok d => .ok ⟨d, start⟩
  | .error e =>
    match e with
    | .outOfRange => (loader start none).map (fun d => ⟨d, start⟩)
    | _ => .error e

/-- `BufferedDataLoader.bufferContainsData(start, size)` with no streaming
`remainingBytes`: `start ≥ buffer.start && start + size ≤ bufferEnd`. -/
def bufferContainsData (buf : Option LoaderBuffer) (start size : Nat) : Bool :=
  match buf with
  | none => false
  | some b =>
    decide (start ≥ b.startPos) && decide (start + size ≤ b.startPos + b.data.length)

/-- `BufferedDataLoader.getDataFromBuffer(start, size)`, non-streaming path:
`IOError` when fewer than `size` bytes are buffered, else
`buffer.data.slice(start - buffer.start, … + size)`. -/
def getDataFromBuffer (b : LoaderBuffer) (start size : Nat) : Except DLError (List Nat) :=
  if size > b.data.length then .error .ioError
  else .ok (jsSlice b.data ((start : Int) - (b.startPos : Int))
    (((start : Int) - (b.startPos : Int)) + size))

/-- `BufferedDataLoader.load(start, size)` in non-streaming mode: serve from
the buffer when it contains the range, otherwise refill via
`loadDataIntoBuffer` and slice.  Returns the bytes and the buffer state. -/
def bufferedLoad (loader : Nat → Option Nat → Except DLError (List Nat))
    (bufferSize : Nat) (buf : Option LoaderBuffer) (start size : Nat) :
    Except DLError (List Nat × LoaderBuffer) :=
  if bufferContainsData buf start size then
    match buf with
    | some b => (getDataFromBuffer b start size).map (fun d => (d, b))
    | none => .error (.other 0)
  else
    match loadDataIntoBuffer loader bufferSize start with
    | .error e => .error e
    | .ok b => (getDataFromBuffer b start size).map (fun d => (d, b))

/-- Modelled from the spec: the claim's "(seqLen+1)/2 bytes (integer
division, i.e. ceil(seqLen/2) bytes)".  Used only to compare against the
source's `seqLoopCount`. -/
def claimedSeqBytes (seqLen : Int) : Nat := ((seqLen + 1) / 2).toNat

/-! ## Concrete fixtures used by counterexamples and witnesses -/

/-- A 2bit sequence record with no N-blocks and no mask-blocks. -/
def tbRecPlain : SequenceRecord := ⟨200, 0, [], [], 0, [], [], 0, 0⟩

/-- A 2bit sequence record with one N-block `[0, 1)` and one mask-block
`[5, 8)`. -/
def tbRecMask : SequenceRecord := ⟨200, 1, [0], [1], 1, [5], [3], 0, 0⟩

/-- A zoom data block of exactly 32 bytes: one complete record
`(chromId 0, start 0, end 5, validCount 1, zero summary fields)`. -/
def zoomBlock32 : List Nat :=
  [0, 0, 0, 0, 0, 0, 0, 0, 5, 0, 0, 0, 1, 0, 0, 0,
   0, 0, 0, 0, 0, 0, 0, 0, 0, 0, 0, 0, 0, 0, 0, 0]

/-- A wig data block: header (chromId 1, start 5, end 8, itemStep 0,
itemSpan 0, type 1 BedGraph, itemCount 1) and one item (start 5, end 8,
value bits 0). -/
def wigBlock : List Nat :=
  [1, 0, 0, 0, 5, 0, 0, 0, 8, 0, 0, 0, 0, 0, 0, 0, 0, 0, 0, 0,
   1, 0, 1, 0, 5, 0, 0, 0, 8, 0, 0, 0, 0, 0, 0, 0]

/-- A bed data block: one record (chromId 1, start 5, end 8,
rest `"a"` NUL-terminated). -/
def bedBlock : List Nat := [1, 0, 0, 0, 5, 0, 0, 0, 8, 0, 0, 0, 97, 0]

/-- A zoom data block of 36 bytes whose first record is
`(chromId 1, start 5, end 8, validCount 1, …)`. -/
def zoomBlock36 : List Nat :=
  [1, 0, 0, 0, 5, 0, 0, 0, 8, 0, 0, 0, 1, 0, 0, 0,
   0, 0, 0, 0, 0, 0, 0, 0, 0, 0, 0, 0, 0, 0, 0, 0, 0, 0, 0, 0]

/-- A 38-byte BAM alignment record buffer: blockSize 34, refID 0, pos 5,
readNameLen 1, no CIGAR, seqLen 0, readName "A"; decodes to exactly one
alignment for the query (refId 0, [0, 10]). -/
def bamRec38 : List Nat :=
  [34, 0, 0, 0, 0, 0, 0, 0, 5, 0, 0, 0, 1, 0, 0, 0, 0, 0, 0, 0,
   0, 0, 0, 0, 0, 0, 0, 0, 0, 0, 0, 0, 0, 0, 0, 0, 65, 0]

/-- A 41-byte BAM alignment record buffer with seqLen 2: after the read name
(1 byte at offset 36) the packed-sequence bytes start at offset 37 and are
followed by the bytes 1, 2, 3. -/
def bamRec41 : List Nat :=
  [37, 0, 0, 0, 0, 0, 0, 0, 5, 0, 0, 0, 1, 0, 0, 0, 0, 0, 0, 0,
   2, 0, 0, 0, 0, 0, 0, 0, 0, 0, 0, 0, 0, 0, 0, 0, 65, 18, 1, 2, 3]

/-- An inflate behaviour that yields `bamRec38` as the decompressed member
and consumes all input. -/
def inflateFix : List Nat → InflateResult := fun input => ⟨bamRec38, input.length, 0⟩

/-- A data loader returning no bytes (the fixture's inflate ignores its
input). -/
def loadFix : Nat → Nat → List Nat := fun _ _ => []

/-- The degenerate chunk `[(0,0), (0,0)]`. -/
def chunkFix : Chunk := ⟨⟨0, 0⟩, ⟨0, 0⟩⟩

/-- BAI fixture: one bin (number 0) holding two raw chunks whose inflated
forms are `[(0,0),(1,0)]` and `[(65636,0),(65637,0)]`, and a one-entry
linear index. -/
def baiFix : BamIndexRefData :=
  ⟨[(0, [⟨[0, 0, 0, 0, 0, 0, 0, 0], [0, 0, 1, 0, 0, 0, 0, 0]⟩,
        ⟨[0, 0, 100, 0, 1, 0, 0, 0], [0, 0, 101, 0, 1, 0, 0, 0]⟩])],
   [[0, 0, 0, 0, 0, 0, 0, 0]]⟩

/-- A loader whose sized reads are out of range and whose unsized reads fail
with a distinct error. -/
def loaderOOR : Nat → Option Nat → Except DLError (List Nat) := fun _ sz =>
  match sz with
  | some _ => .error .outOfRange
  | none => .error (.other 7)

/-- A loader whose sized reads fail with a non-out-of-range error. -/
def loaderIO : Nat → Option Nat → Except DLError (List Nat) := fun _ sz =>
  match sz with
  | some _ => .error (.other 3)
  | none => .ok []

/-- A loader whose sized reads are out of range and whose unsized reads
succeed with three bytes. -/
def loaderTail : Nat → Option Nat → Except DLError (List Nat) := fun _ sz =>
  match sz with
  | some _ => .error .outOfRange
  | none => .ok [7, 8, 9]

/-! # Theorems -/

/-! ## C7: the zoom decoder's record-boundary behaviour -/

theorem intRange_length (a b : Int) : (intRange a b).length = (b + 1 - a).toNat := by
  unfold intRange
  rw [List.length_map, List.length_range]

theorem numZoomIter_succ {m : Nat} (h : 33 ≤ m) :
    numZoomIter m = numZoomIter (m - 32) + 1 := by
  simp only [numZoomIter]
  split <;> split <;> omega

theorem numZoomIter_zero {m : Nat} (h : m ≤ 32) : numZoomIter m = 0 := by
  simp only [numZoomIter]
  split <;> omega

theorem zoomLoop_eq_filter (data : List Nat) (fsc fsb fec feb : Int) (dict : List String) :
    ∀ fuel pos, numZoomIter (data.length - pos) ≤ fuel →
      zoomLoop data fsc fsb fec feb dict pos fuel =
        zoomFilterRun fsc fsb fec feb
          ((List.range (numZoomIter (data.length - pos))).map
            (fun i => parseZoomRecord data dict (pos + 32 * i))) := by
  intro fuel
  induction fuel with
  | zero =>
    intro pos h
    have h0 : numZoomIter (data.length - pos) = 0 := Nat.le_zero.mp h
    simp [zoomLoop, h0, zoomFilterRun]
  | succ fuel ih =>
    intro pos h
    by_cases hgt : data.length - pos > 32
    · have h33 : 33 ≤ data.length - pos := hgt
      have hnext : data.length - (pos + 32) = data.length - pos - 32 := by omega
      have hle : numZoomIter (data.length - (pos + 32)) ≤ fuel := by
        rw [hnext]; have := numZoomIter_succ h33; omega
      have ihr := ih (pos + 32) hle
      rw [numZoomIter_succ h33, List.range_succ_eq_map]
      simp only [List.map_cons, List.map_map, Function.comp_def, Nat.mul_zero, Nat.add_zero]
      have hmap : (List.range (numZoomIter (data.length - pos - 32))).map
            (fun i => parseZoomRecord data dict (pos + 32 * (i + 1))) =
          (List.range (numZoomIter (data.length - pos - 32))).map
            (fun i => parseZoomRecord data dict (pos + 32 + 32 * i)) :=
        List.map_congr_left (fun i _ => by congr 1; omega)
      rw [hmap]
      simp only [zoomLoop, if_pos hgt, zoomFilterRun]
      rw [ihr, hnext]
    · have h0 : numZoomIter (data.length - pos) = 0 := numZoomIter_zero (by omega)
      rw [h0]
      simp [zoomLoop, hgt, zoomFilterRun]

/-- C7, counterexample: on a block of exactly 32 bytes holding one complete
record that passes the interval filter, `decodeZoomData` emits nothing,
while the spec-side decoder (which reads a record whenever a complete
32-byte record remains) emits it. -/
theorem decodeZoomData_drops_last_record :
    decodeZoomData zoomBlock32 0 0 0 10 ["chr1"] = [] ∧
    decodeZoomDataSpec zoomBlock32 0 0 0 10 ["chr1"] =
      [⟨0, "chr1", 0, 5, 1, 0, 0, 0, 0⟩] := by
  decide

/-- C7 (amended): `decodeZoomData` reads 32-byte records only while strictly
more than 32 bytes remain, applying the skip-before/stop-after filter to
each record read; consequently a block whose byte length is an exact
multiple of 32, say `32·k`, has only its first `k − 1` records read — the
final record is never read. -/
theorem decodeZoomData_reads_while_over_32 :
    (∀ data fsc fsb fec feb dict,
      decodeZoomData data fsc fsb fec feb dict =
        zoomFilterRun fsc fsb fec feb
          (parseZoomRecords data dict (numZoomIter data.length))) ∧
    (∀ k : Nat, numZoomIter (32 * k) = k - 1) := by
  constructor
  · intro data fsc fsb fec feb dict
    have hfuel : numZoomIter (data.length - 0) ≤ data.length := by
      simp only [numZoomIter]; split <;> omega
    have h := zoomLoop_eq_filter data fsc fsb fec feb dict data.length 0 hfuel
    simpa [decodeZoomData, parseZoomRecords] using h
  · intro k
    simp only [numZoomIter]
    split <;> omega

/-! ## C2: the interval filter invariant of the three block decoders -/

theorem wigLoop_filter_inv (data : List Nat) (fsc fsb fec feb ci : Int) (chrom : String)
    (step span : Int) (typ : Nat) :
    ∀ count pos sb eb r, r ∈ wigLoop data fsc fsb fec feb ci chrom step span typ count pos sb eb →
      r.chromIndex = ci ∧ (ci = fsc → fsb ≤ r.stop) ∧ (ci = fec → r.start < feb) := by
  intro count
  induction count with
  | zero => intro pos sb eb r hr; simp [wigLoop] at hr
  | succ count ih =>
    intro pos sb eb r hr
    simp only [wigLoop] at hr
    split at hr
    · simp at hr
    · rename_i hstop
      split at hr
      · exact ih _ _ _ r hr
      · rename_i hskip
        rcases List.mem_cons.mp hr with hhead | htail
        · subst hhead
          refine ⟨rfl, ?_, ?_⟩
          · intro hc
            by_contra hlt
            simp only [BigWigDataRec.stop] at hlt
            exact hskip (Or.inr ⟨hc, by omega⟩)
          · intro hc
            by_contra hge
            simp only [BigWigDataRec.start] at hge
            exact hstop (Or.inr ⟨hc, by omega⟩)
        · exact ih _ _ _ r htail

theorem bedLoop_filter_inv (data : List Nat) (fsc fsb fec feb : Int) (dict : List String) :
    ∀ fuel pos r, r ∈ bedLoop data fsc fsb fec feb dict pos fuel →
      fsc ≤ r.chromIndex ∧ r.chromIndex ≤ fec ∧
        (r.chromIndex = fsc → fsb ≤ r.stop) ∧ (r.chromIndex = fec → r.start < feb) := by
  intro fuel
  induction fuel with
  | zero => intro pos r hr; simp [bedLoop] at hr
  | succ fuel ih =>
    intro pos r hr
    simp only [bedLoop] at hr
    split at hr
    · split at hr
      · exact ih _ r hr
      · rename_i hskip
        split at hr
        · simp at hr
        · rename_i hstop
          rcases List.mem_cons.mp hr with hhead | htail
          · subst hhead
            refine ⟨?_, ?_, ?_, ?_⟩ <;> simp only
            · by_contra h; exact hskip (Or.inl (by omega))
            · by_contra h; exact hstop (Or.inl (by omega))
            · intro hc; by_contra h; exact hskip (Or.inr ⟨hc, by omega⟩)
            · intro hc; by_contra h; exact hstop (Or.inr ⟨hc, by omega⟩)
          · exact ih _ r htail
    · simp at hr

theorem zoomLoop_filter_inv (data : List Nat) (fsc fsb fec feb : Int) (dict : List String) :
    ∀ fuel pos r, r ∈ zoomLoop data fsc fsb fec feb dict pos fuel →
      fsc ≤ r.chromIndex ∧ r.chromIndex ≤ fec ∧
        (r.chromIndex = fsc → fsb ≤ r.stop) ∧ (r.chromIndex = fec → r.start < feb) := by
  intro fuel
  induction fuel with
  | zero => intro pos r hr; simp [zoomLoop] at hr
  | succ fuel ih =>
    intro pos r hr
    simp only [zoomLoop] at hr
    split at hr
    · split at hr
      · exact ih _ r hr
      · rename_i hskip
        split at hr
        · simp at hr
        · rename_i hstop
          rcases List.mem_cons.mp hr with hhead | htail
          · subst hhead
            refine ⟨?_, ?_, ?_, ?_⟩
            · by_contra h; exact hskip (Or.inl (by omega))
            · by_contra h; exact hstop (Or.inl (by omega))
            · intro hc; by_contra h; exact hskip (Or.inr ⟨hc, by omega⟩)
            · intro hc; by_contra h; exact hstop (Or.inr ⟨hc, by omega⟩)
          · exact ih _ r htail
    · simp at hr

/-- C2: for each of the three block decoders and every query rectangle
`(startChrom, startBase, endChrom, endBase) = (fsc, fsb, fec, feb)`, every
emitted record has its chromosome id in `[fsc, fec]`; records on `fsc` end
at or after `fsb`; records on `fec` start before `feb`. -/
theorem decode_filter_invariant :
    (∀ data fsc fsb fec feb dict r, r ∈ decodeWigData data fsc fsb fec feb dict →
      fsc ≤ r.chromIndex ∧ r.chromIndex ≤ fec ∧
        (r.chromIndex = fsc → fsb ≤ r.stop) ∧ (r.chromIndex = fec → r.start < feb)) ∧
    (∀ data fsc fsb fec feb dict r, r ∈ decodeBedData data fsc fsb fec feb dict →
      fsc ≤ r.chromIndex ∧ r.chromIndex ≤ fec ∧
        (r.chromIndex = fsc → fsb ≤ r.stop) ∧ (r.chromIndex = fec → r.start < feb)) ∧
    (∀ data fsc fsb fec feb dict r, r ∈ decodeZoomData data fsc fsb fec feb dict →
      fsc ≤ r.chromIndex ∧ r.chromIndex ≤ fec ∧
        (r.chromIndex = fsc → fsb ≤ r.stop) ∧ (r.chromIndex = fec → r.start < feb)) := by
  refine ⟨?_, ?_, ?_⟩
  · intro data fsc fsb fec feb dict r hr
    simp only [decodeWigData] at hr
    split at hr
    · simp at hr
    · rename_i hguard
      have hinv := wigLoop_filter_inv data fsc fsb fec feb (readI32 data 0)
        (dictGet dict (readI32 data 0)) (readI32 data 12) (readI32 data 16)
        (byteAt data 20) _ _ _ _ r hr
      push_neg at hguard
      refine ⟨?_, ?_, ?_, ?_⟩
      · rw [hinv.1]; exact hguard.1
      · rw [hinv.1]; exact hguard.2
      · rw [hinv.1]; exact hinv.2.1
      · rw [hinv.1]; exact hinv.2.2
  · intro data fsc fsb fec feb dict r hr
    exact bedLoop_filter_inv data fsc fsb fec feb dict _ _ r hr
  · intro data fsc fsb fec feb dict r hr
    exact zoomLoop_filter_inv data fsc fsb fec feb dict _ _ r hr

/-- C2, witness: the invariant instantiated on concrete wig, bed and zoom
blocks each emitting a record for the query rectangle `(0, 0, 2, 100)`. -/
theorem decode_filter_invariant_witness :
    ((0 : Int) ≤ 1 ∧ (1 : Int) ≤ 2 ∧ ((1 : Int) = 0 → (0 : Int) ≤ 8) ∧
      ((1 : Int) = 2 → (5 : Int) < 100)) ∧
    ((0 : Int) ≤ 1 ∧ (1 : Int) ≤ 2 ∧ ((1 : Int) = 0 → (0 : Int) ≤ 8) ∧
      ((1 : Int) = 2 → (5 : Int) < 100)) ∧
    ((0 : Int) ≤ 1 ∧ (1 : Int) ≤ 2 ∧ ((1 : Int) = 0 → (0 : Int) ≤ 8) ∧
      ((1 : Int) = 2 → (5 : Int) < 100)) :=
  ⟨decode_filter_invariant.1 wigBlock 0 0 2 100 ["c0", "c1"]
      ⟨1, "c1", 5, 8, 0⟩ (by decide),
   decode_filter_invariant.2.1 bedBlock 0 0 2 100 ["c0", "c1"]
      ⟨1, "c1", 5, 8, ['a']⟩ (by decide),
   decode_filter_invariant.2.2 zoomBlock36 0 0 2 100 ["c0", "c1"]
      ⟨1, "c1", 5, 8, 1, 0, 0, 0, 0⟩ (by decide)⟩

/-! ## C4: sequence/phred byte layout in readBamFeatures -/

/-- C4: the source computes `seqBytes = (seqLen + 1) / 2` with JS *real*
division, so for even `seqLen` the sequence loop reads one byte more than
the claimed `⌈seqLen / 2⌉`, and the phred bytes are read one byte later: on
a record with `seqLen = 2` whose packed sequence starts at offset 37, the
code reads 2 sequence bytes and phred qualities `[2, 3]`, while the bytes
immediately following the claimed single sequence byte are `[1, 2]`. -/
theorem readBamFeatures_even_seqLen_extra_byte :
    seqLoopCount 2 = 2 ∧ claimedSeqBytes 2 = 1 ∧
    (readBamFeatures bamRec41 0 "c" 0 10).map (List.map BamAlignment.phredQualities) =
      some [[2, 3]] ∧
    (List.range 2).map (fun i => byteAt bamRec41 (37 + claimedSeqBytes 2 + i)) = [1, 2] := by
  decide

/-! ## C8: mask-block overlay in loadSequence -/

/-- C8: the mask-block selection loop tests `nBlockStarts[i]` and
`nBlockSizes[i]`; on a record whose single N-block `[0, 1)` ends before the
query `[3, 10)`, the `continue` fires at index 0 and the mask block `[5, 8)`
— which intersects the query — is never collected, so the returned string is
entirely uppercase. -/
theorem loadSequence_mask_block_skipped :
    loadSequence (fun _ => 0) tbRecMask 3 10 = List.replicate 8 'T' ∧
    5 < 10 ∧ 3 < 5 + 3 := by
  decide

/-! ## C1 (counterexample part): length of the decoded 2bit string -/

/-- C1, counterexample: with no N-blocks and no mask-blocks, the string
returned for the query `[2, 10)` has length 9, not `10 − 2 = 8` — the
source first replaces `start` by `start − 1`. -/
theorem loadSequence_start_shift_counterexample :
    (loadSequence (fun _ => 0) tbRecPlain 2 10).length = 9 ∧
    (loadSequence (fun _ => 0) tbRecPlain 2 10).length ≠ 10 - 2 := by
  decide

/-! ## C3: the readBam chunk pipeline -/

theorem readBamGo_eq_perChunk (load : Nat → Nat → List Nat) (inflate : List Nat → InflateResult)
    (refId : Int) (chr : String) (start stop : Int) :
    ∀ (chunks : List Chunk) (acc : List BamAlignment),
      readBamGo load inflate refId chr start stop chunks acc =
        (readBamPerChunk load inflate refId chr start stop chunks).map (acc ++ ·) := by
  intro chunks
  induction chunks with
  | nil => intro acc; simp [readBamGo, readBamPerChunk]
  | cons c rest ih =>
    intro acc
    simp only [readBamGo, readBamPerChunk]
    cases hc : readBamFeatures ((bgzfUnzip inflate
        (load c.start.blockPosition (c.stop.blockPosition + 65536 - c.start.blockPosition))
        none).drop c.start.dataPosition) refId chr start stop with
    | none => rfl
    | some aligns =>
      cases hrest : readBamPerChunk load inflate refId chr start stop rest with
      | none =>
        dsimp only
        rw [ih (acc ++ aligns), hrest]
        rfl
      | some more =>
        dsimp only
        rw [ih (acc ++ aligns), hrest]
        simp [List.append_assoc]

/-- C3, counterexample: on a concrete chunk, loader and inflate behaviour,
`readBam` (which does not pass the chunk to `bgzfUnzip`) returns one
alignment, while the spec-described pipeline (chunk passed as trim hints)
truncates the decompressed data at the chunk's end virtual offset and
returns none — the two pipelines differ. -/
theorem readBam_no_trim_counterexample :
    readBam loadFix inflateFix [chunkFix] 0 "chr22" 0 10 ≠
      readBamClaimed loadFix inflateFix [chunkFix] 0 "chr22" 0 10 := by
  decide

/-- C3 (amended): for every chunk in the list, `readBam` fetches the bytes
`[chunk.start.blockPosition, chunk.end.blockPosition + 65536)`,
BGZF-decompresses them with *no* trim hints (the chunk is not passed, so the
output is not truncated at the chunk's end virtual offset), slices off
`chunk.start.dataPosition` leading bytes, decodes alignments, and
concatenates the results in chunk order. -/
theorem readBam_pipeline (load : Nat → Nat → List Nat) (inflate : List Nat → InflateResult)
    (chunks : List Chunk) (refId : Int) (chr : String) (start stop : Int) :
    readBam load inflate chunks refId chr start stop =
      readBamPerChunk load inflate refId chr start stop chunks := by
  have h := readBamGo_eq_perChunk load inflate refId chr start stop chunks []
  rw [readBam, h]
  cases readBamPerChunk load inflate refId chr start stop chunks <;> simp

/-! ## C9: error propagation in BufferedDataLoader -/

/-- C9: on a `BufferedDataLoader.load` call that misses the buffer: if the
sized underlying load fails with `OutOfRange`, the loader retries exactly
once with no size bound — an error from the retry propagates, a success from
the retry becomes the new buffer; any non-`OutOfRange` error from the sized
load surfaces immediately. -/
theorem bufferedLoad_error_policy (loader : Nat → Option Nat → Except DLError (List Nat))
    (bufferSize : Nat) (buf : Option LoaderBuffer) (start size : Nat)
    (hmiss : bufferContainsData buf start size = false) :
    (loader start (some bufferSize) = .error .outOfRange →
      ∀ e', loader start none = .error e' →
        bufferedLoad loader bufferSize buf start size = .error e') ∧
    (loader start (some bufferSize) = .error .outOfRange →
      ∀ d, loader start none = .ok d →
        bufferedLoad loader bufferSize buf start size =
          (getDataFromBuffer ⟨d, start⟩ start size).map
            (fun bytes => (bytes, (⟨d, start⟩ : LoaderBuffer)))) ∧
    (∀ e, loader start (some bufferSize) = .error e → e ≠ .outOfRange →
      bufferedLoad loader bufferSize buf start size = .error e) := by
  refine ⟨?_, ?_, ?_⟩
  · intro h1 e' h2
    simp [bufferedLoad, hmiss, loadDataIntoBuffer, h1, h2, Except.map]
  · intro h1 d h2
    simp [bufferedLoad, hmiss, loadDataIntoBuffer, h1, h2, Except.map]
  · intro e h1 hne
    cases e with
    | outOfRange => exact absurd rfl hne
    | ioError => simp [bufferedLoad, hmiss, loadDataIntoBuffer, h1]
    | other code => simp [bufferedLoad, hmiss, loadDataIntoBuffer, h1]

/-- C9, witness: the three conclusions at concrete loaders — a retry whose
error propagates, a retry whose bytes are adopted, and a non-out-of-range
error surfacing unchanged. -/
theorem bufferedLoad_error_policy_witness :
    bufferedLoad loaderOOR 10 none 0 5 = .error (.other 7) ∧
    bufferedLoad loaderTail 10 none 0 2 =
      (getDataFromBuffer ⟨[7, 8, 9], 0⟩ 0 2).map
        (fun bytes => (bytes, (⟨[7, 8, 9], 0⟩ : LoaderBuffer))) ∧
    bufferedLoad loaderIO 10 none 0 5 = .error (.other 3) :=
  ⟨(bufferedLoad_error_policy loaderOOR 10 none 0 5 rfl).1 rfl (.other 7) rfl,
   (bufferedLoad_error_policy loaderTail 10 none 0 2 rfl).2.1 rfl [7, 8, 9] rfl,
   (bufferedLoad_error_policy loaderIO 10 none 0 5 rfl).2.2 (.other 3) rfl (by decide)⟩

/-! ## C6: reg2bins bin count -/

/-- C6, counterexample: for `start = 0`, `end = 2^29` the list returned by
`reg2bins` has `1 + 8 + 64 + 512 + 4096 + 32768 = 37449` entries, far more
than the claimed bound `1 + 2 + 9 + 73 + 585 + 4681 = 5351`. -/
theorem reg2bins_exceeds_claimed_bound :
    (reg2bins 0 536870912).length = 37449 ∧
    ¬ (reg2bins 0 536870912).length ≤ 5351 := by
  have h0 : toInt32 0 = 0 := by decide
  have e26 : Int.fdiv 536870911 67108864 = 7 := by decide
  have e23 : Int.fdiv 536870911 8388608 = 63 := by decide
  have e20 : Int.fdiv 536870911 1048576 = 511 := by decide
  have e17 : Int.fdiv 536870911 131072 = 4095 := by decide
  have e14 : Int.fdiv 536870911 16384 = 32767 := by decide
  have s26 : Int.fdiv 0 67108864 = 0 := by decide
  have s23 : Int.fdiv 0 8388608 = 0 := by decide
  have s20 : Int.fdiv 0 1048576 = 0 := by decide
  have s17 : Int.fdiv 0 131072 = 0 := by decide
  have s14 : Int.fdiv 0 16384 = 0 := by decide
  have hlen : (reg2bins 0 536870912).length = 37449 := by
    simp only [reg2bins, List.length_append, List.length_cons, List.length_nil,
      intRange_length, h0]
    norm_num
    omega
  exact ⟨hlen, by omega⟩

/-- C6 (amended): for every `0 ≤ start < end` with `start < 2^31` (so that
the JS int32 shifts in `reg2bins` act as plain floor divisions), the list
returned by `reg2bins` contains bin number 0 and has length at most
`1 + 8 + 64 + 512 + 4096 + 32768 = 37449`. -/
theorem reg2bins_bins_bound (start endq : Nat) (_h1 : start < endq)
    (h2 : start < 2147483648) :
    (0 : Int) ∈ reg2bins start endq ∧ (reg2bins start endq).length ≤ 37449 := by
  constructor
  · simp [reg2bins]
  · have hm : start % 4294967296 = start := Nat.mod_eq_of_lt (by omega)
    have hst : toInt32 start = (start : Int) := by
      simp only [toInt32, toSigned32, hm]
      rw [if_pos (by exact_mod_cast h2)]
    have hstn : (0 : Int) ≤ toInt32 start := by rw [hst]; exact Int.natCast_nonneg start
    have hsh : ∀ d : Int, 0 < d → (0 : Int) ≤ Int.fdiv (toInt32 start) d :=
      fun d hd => Int.fdiv_nonneg hstn (le_of_lt hd)
    have he : ((if endq ≥ 536870912 then (536870912 : Int) else (endq : Int)) - 1) ≤
        536870911 := by
      split <;> omega
    have heh : ∀ d c : Int, 0 < d → Int.fdiv 536870911 d = c →
        Int.fdiv ((if endq ≥ 536870912 then (536870912 : Int) else (endq : Int)) - 1)
          d ≤ c := by
      intro d c hd hc
      rw [← hc, Int.fdiv_eq_ediv _ (le_of_lt hd), Int.fdiv_eq_ediv _ (le_of_lt hd)]
      exact Int.ediv_le_ediv hd he
    have b26 := heh ((2 : Int) ^ (26 : Nat)) 7 (by positivity) (by decide)
    have b23 := heh ((2 : Int) ^ (23 : Nat)) 63 (by positivity) (by decide)
    have b20 := heh ((2 : Int) ^ (20 : Nat)) 511 (by positivity) (by decide)
    have b17 := heh ((2 : Int) ^ (17 : Nat)) 4095 (by positivity) (by decide)
    have b14 := heh ((2 : Int) ^ (14 : Nat)) 32767 (by positivity) (by decide)
    have a26 := hsh ((2 : Int) ^ (26 : Nat)) (by positivity)
    have a23 := hsh ((2 : Int) ^ (23 : Nat)) (by positivity)
    have a20 := hsh ((2 : Int) ^ (20 : Nat)) (by positivity)
    have a17 := hsh ((2 : Int) ^ (17 : Nat)) (by positivity)
    have a14 := hsh ((2 : Int) ^ (14 : Nat)) (by positivity)
    simp only [reg2bins, List.length_append, List.length_cons, List.length_nil,
      intRange_length]
    omega

/-- C6, witness: the amended bound at the concrete query `(0, 1)`. -/
theorem reg2bins_bins_bound_witness :
    (0 : Int) ∈ reg2bins 0 1 ∧ (reg2bins 0 1).length ≤ 37449 :=
  reg2bins_bins_bound 0 1 (by decide) (by decide)

/-! ## C10: termination of readBamFeatures -/

theorem decodeBamRecord_blockSize (data : List Nat) (p : Nat) :
    (decodeBamRecord data p).blockSize = readI32 data p := rfl

theorem decodeBamRecord_blockEnd (data : List Nat) (p : Nat) :
    (decodeBamRecord data p).blockEnd = ((p : Int) + 4) + readI32 data p := rfl

theorem readBamFeaturesGo_fuel (data : List Nat) (refId : Int) (chr : String)
    (bpStart bpEnd : Int)
    (H : ∀ k, headAt data k < data.length → 0 ≤ readI32 data (headAt data k)) :
    ∀ fuel k, data.length - headAt data k < 4 * fuel →
      readBamFeaturesGo data refId chr bpStart bpEnd fuel (headAt data k) ≠ none := by
  intro fuel
  induction fuel with
  | zero => intro k h; omega
  | succ fuel ih =>
    intro k h
    rw [readBamFeaturesGo]
    by_cases hp : headAt data k < data.length
    · rw [if_pos hp]
      have hbs : 0 ≤ readI32 data (headAt data k) := H k hp
      have hge : headAt data k + 4 ≤ headAt data (k + 1) := by
        show headAt data k + 4 ≤
          (((headAt data k : Int) + 4) + readI32 data (headAt data k)).toNat
        omega
      dsimp only
      rw [decodeBamRecord_blockSize, decodeBamRecord_blockEnd]
      have heq : (((headAt data k : Int) + 4) + readI32 data (headAt data k)).toNat =
          headAt data (k + 1) := rfl
      rw [heq]
      split
      · simp
      · split
        · exact ih (k + 1) (by omega)
        · have hrec := ih (k + 1) (by omega)
          cases hres : readBamFeaturesGo data refId chr bpStart bpEnd fuel
              (headAt data (k + 1)) with
          | none => exact absurd hres hrec
          | some l => simp [hres]
    · rw [if_neg hp]
      simp

/-- C10: whenever the `blockSize` value read at the head of each record is
non-negative, `readBamFeatures` terminates with a result: every loop
iteration either breaks or advances the position by `4 + blockSize ≥ 4`
bytes, so fuel `byteLength / 4 + 1` (one more than the claimed
`⌈byteLength / 4⌉` iteration bound) is never exhausted. -/
theorem readBamFeatures_terminates (data : List Nat) (refId : Int) (chr : String)
    (bpStart bpEnd : Int)
    (H : ∀ k, headAt data k < data.length → 0 ≤ readI32 data (headAt data k)) :
    ∃ l, readBamFeatures data refId chr bpStart bpEnd = some l := by
  have h0 : headAt data 0 = 0 := rfl
  have hfuel : data.length - headAt data 0 < 4 * (data.length / 4 + 1) := by
    rw [h0]; omega
  have h := readBamFeaturesGo_fuel data refId chr bpStart bpEnd H
    (data.length / 4 + 1) 0 hfuel
  rw [h0] at h
  cases hres : readBamFeaturesGo data refId chr bpStart bpEnd (data.length / 4 + 1) 0 with
  | none => exact absurd hres h
  | some l => exact ⟨l, by rw [readBamFeatures, hres]⟩

/-- C10, witness: the termination theorem applied to the empty buffer (the
non-negativity hypothesis is vacuous). -/
theorem readBamFeatures_terminates_witness :
    ∃ l, readBamFeatures [] 0 "chr" 0 0 = some l :=
  readBamFeatures_terminates [] 0 "chr" 0 0
    (fun _ h => absurd h (Nat.not_lt_zero _))

/-! ## C5: blocksForRange returns sorted, non-coalescable chunks -/

theorem chunkLeRel_refl (c : Chunk) : chunkLeRel c c := by
  simp [chunkLeRel, chunkStartLe]

theorem isVOLessThan_irrefl (v : VirtualOffset) : isVOLessThan v v = false := by
  simp [isVOLessThan]

theorem optLoop_inv (lowest : Option VirtualOffset) :
    ∀ rest acc : List Chunk,
      List.Pairwise chunkLeRel rest →
      (∀ c ∈ rest, ∀ a ∈ acc, chunkLeRel a c) →
      List.Chain' (fun x y => chunkLeRel y x) acc →
      List.Chain' (fun x y => chunkGap y x) acc →
      List.Chain' chunkLeRel (optLoop lowest rest acc) ∧
        List.Chain' chunkGap (optLoop lowest rest acc) := by
  intro rest
  induction rest with
  | nil =>
    intro acc _ _ hs hg
    rw [optLoop]
    exact ⟨List.chain'_reverse.mpr hs, List.chain'_reverse.mpr hg⟩
  | cons chunk rest ih =>
    intro acc hpw hrel hs hg
    have hpwTail : List.Pairwise chunkLeRel rest := hpw.tail
    have hpwHead : ∀ c ∈ rest, chunkLeRel chunk c := fun c hc =>
      List.rel_of_pairwise_cons hpw hc
    rw [optLoop.eq_def]
    dsimp only
    split
    · exact ih acc hpwTail (fun c hc a ha => hrel c (List.mem_cons_of_mem _ hc) a ha) hs hg
    · cases acc with
      | nil =>
        dsimp only
        simp only [isVOLessThan_irrefl, Bool.false_eq_true, if_false]
        split
        · exact ih [chunk] hpwTail
            (fun c hc a ha => by
              rw [List.mem_singleton] at ha
              exact ha ▸ hpwHead c hc)
            (List.chain'_singleton _) (List.chain'_singleton _)
        · rename_i hgap
          exact ih (chunk :: [chunk]) hpwTail
            (fun c hc a ha => by
              rcases List.mem_cons.mp ha with h1 | h1
              · exact h1 ▸ hpwHead c hc
              · rw [List.mem_singleton] at h1
                exact h1 ▸ hpwHead c hc)
            (List.chain'_cons.mpr ⟨chunkLeRel_refl chunk, List.chain'_singleton _⟩)
            (List.chain'_cons.mpr ⟨by unfold chunkGap; omega, List.chain'_singleton _⟩)
      | cons cur tail =>
        dsimp only
        split
        · rename_i hclose
          rcases List.chain'_cons'.mp hs with ⟨hsHead, hsTail⟩
          rcases List.chain'_cons'.mp hg with ⟨hgHead, hgTail⟩
          apply ih ((if isVOLessThan cur.stop chunk.stop then { cur with stop := chunk.stop }
            else cur) :: tail) hpwTail
          · intro c hc a ha
            rcases List.mem_cons.mp ha with h1 | h1
            · subst h1
              have hbase := hrel c (List.mem_cons_of_mem _ hc) cur (List.mem_cons_self _ _)
              split <;>
                simpa [chunkLeRel, chunkStartLe] using hbase
            · exact hrel c (List.mem_cons_of_mem _ hc) a (List.mem_cons_of_mem _ h1)
          · refine List.chain'_cons'.mpr ⟨?_, hsTail⟩
            intro b hb
            have hbase := hsHead b hb
            split <;>
              simpa [chunkLeRel, chunkStartLe] using hbase
          · refine List.chain'_cons'.mpr ⟨?_, hgTail⟩
            intro b hb
            have hbase := hgHead b hb
            split <;>
              simpa [chunkGap] using hbase
        · rename_i hgap
          apply ih (chunk :: cur :: tail) hpwTail
          · intro c hc a ha
            rcases List.mem_cons.mp ha with h1 | h1
            · exact h1 ▸ hpwHead c hc
            · exact hrel c (List.mem_cons_of_mem _ hc) a h1
          · exact List.chain'_cons.mpr
              ⟨hrel chunk (List.mem_cons_self _ _) cur (List.mem_cons_self _ _), hs⟩
          · exact List.chain'_cons.mpr ⟨by unfold chunkGap; omega, hg⟩

theorem optimizeChunks_sorted_coalesced (chunks : List Chunk)
    (lowest : Option VirtualOffset) :
    List.Chain' chunkLeRel (optimizeChunks chunks lowest) ∧
      List.Chain' chunkGap (optimizeChunks chunks lowest) := by
  unfold optimizeChunks
  split
  · simp
  · exact optLoop_inv lowest (chunks.insertionSort chunkLeRel) []
      (List.sorted_insertionSort chunkLeRel chunks)
      (fun c _ a ha => absurd ha (List.not_mem_nil a))
      List.chain'_nil List.chain'_nil

/-- C5: whenever `blocksForRange` returns a chunk list (its linear-index
scan can throw on out-of-range indices), that list is sorted by chunk start
in virtual-offset order and every pair of consecutive chunks is
non-coalescable under the 65 000-byte rule: the next chunk's
`start.blockPosition` minus the previous chunk's `end.blockPosition` is at
least 65 000. -/
theorem blocksForRange_sorted_coalesced (idx : BamIndexRefData) (start endq : Nat)
    (l : List Chunk) (h : blocksForRange idx start endq = some l) :
    List.Chain' chunkLeRel l ∧ List.Chain' chunkGap l := by
  rw [blocksForRange] at h
  split at h
  · exact Option.noConfusion h
  · have hl := Option.some.inj h
    rw [← hl]
    exact optimizeChunks_sorted_coalesced _ _

/-- C5, witness: the conclusion at a concrete index (one bin holding two
chunks 65 635 compressed bytes apart) and query. -/
theorem blocksForRange_sorted_coalesced_witness :
    List.Chain' chunkLeRel [⟨⟨0, 0⟩, ⟨1, 0⟩⟩, ⟨⟨65636, 0⟩, ⟨65637, 0⟩⟩] ∧
    List.Chain' chunkGap [⟨⟨0, 0⟩, ⟨1, 0⟩⟩, ⟨⟨65636, 0⟩, ⟨65637, 0⟩⟩] :=
  blocksForRange_sorted_coalesced baiFix 0 1
    [⟨⟨0, 0⟩, ⟨1, 0⟩⟩, ⟨⟨65636, 0⟩, ⟨65637, 0⟩⟩] (by decide)

/-! ## C1 (amended part): length of the decoded 2bit string -/

theorem jsSubstring_length (s : List Char) (a b : Int) :
    (jsSubstring s a b).length =
      max (min (max a 0) (s.length : Int)).toNat (min (max b 0) (s.length : Int)).toNat -
        min (min (max a 0) (s.length : Int)).toNat (min (max b 0) (s.length : Int)).toNat := by
  unfold jsSubstring
  simp only [List.length_drop, List.length_take]
  omega

theorem jsSubstringFrom_length (s : List Char) (a : Int) :
    (jsSubstringFrom s a).length = s.length - (min (max a 0) (s.length : Int)).toNat := by
  unfold jsSubstringFrom
  rw [jsSubstring_length]
  omega

theorem rn_length (k : Int) : (rn k).length = k.toNat := List.length_replicate _ _

theorem range_flatMap_getBases_length (g : Nat → Nat) (n : Nat) :
    ((List.range n).flatMap (fun j => getBases (g j))).length = 4 * n := by
  induction n with
  | zero => rfl
  | succ n ih =>
    rw [List.range_succ, List.flatMap_append, List.length_append, ih]
    simp [getBases]
    omega

theorem collectNBlocks_mem (s e : Nat) :
    ∀ l : List (Nat × Nat), ∀ b ∈ collectNBlocks l s e, b.start ≤ e ∧ s ≤ b.start + b.size := by
  intro l
  induction l with
  | nil => intro b hb; simp [collectNBlocks] at hb
  | cons p rest ih =>
    obtain ⟨ps, pz⟩ := p
    intro b hb
    rw [collectNBlocks] at hb
    split at hb
    · simp at hb
    · split at hb
      · exact ih b hb
      · rcases List.mem_cons.mp hb with h1 | h1
        · subst h1
          constructor <;> simp_all
        · exact ih b h1

theorem collectNBlocks_sublist (s e : Nat) :
    ∀ l : List (Nat × Nat),
      (collectNBlocks l s e).Sublist (l.map (fun p => TbBlock.mk p.1 p.2)) := by
  intro l
  induction l with
  | nil => simp [collectNBlocks]
  | cons p rest ih =>
    obtain ⟨ps, pz⟩ := p
    rw [collectNBlocks]
    split
    · exact List.nil_sublist _
    · split
      · exact ih.cons _
      · exact ih.cons₂ _

theorem fillNBlock_length (s e : Nat) (cseq : List Char) (i : Nat) (b : TbBlock)
    (hse : s ≤ e) (hlen : cseq.length = e - s)
    (hble : b.start ≤ e) (hbge : s ≤ b.start + b.size)
    (hpos : i = 0 ∨ s ≤ b.start) :
    (fillNBlock (s : Int) (e : Int) cseq i b).length = e - s := by
  have hmin1 : (if ((b.start : Int) + (b.size : Int)) ≤ (e : Int)
      then ((b.start : Int) + (b.size : Int)) else (e : Int)) =
      min ((b.start : Int) + (b.size : Int)) (e : Int) := by
    split <;> omega
  have hmin2 : (if ((b.start : Int) + (b.size : Int)) < (e : Int)
      then ((b.start : Int) + (b.size : Int)) else (e : Int)) =
      min ((b.start : Int) + (b.size : Int)) (e : Int) := by
    split <;> omega
  unfold fillNBlock
  dsimp only
  rw [hmin1, hmin2]
  split
  · rename_i hb1
    rw [List.length_append, rn_length, jsSubstringFrom_length, hlen]
    omega
  · rename_i hb2
    have hsb : s ≤ b.start := by
      rcases hpos with hi | hbs
      · rcases not_and_or.mp hb2 with hni | hns
        · exact absurd hi hni
        · push_neg at hns
          omega
      · exact hbs
    rw [List.length_append, List.length_append, rn_length, jsSubstring_length,
      jsSubstringFrom_length, hlen]
    omega

theorem fillMaskBlock_length (s e : Nat) (cseq : List Char) (i : Nat) (b : TbBlock)
    (hse : s ≤ e) (hlen : cseq.length = e - s) :
    (fillMaskBlock (s : Int) (e : Int) cseq i b).length = e - s := by
  have hmin1 : (if ((b.start : Int) + (b.size : Int)) ≤ (e : Int)
      then ((b.start : Int) + (b.size : Int)) else (e : Int)) =
      min ((b.start : Int) + (b.size : Int)) (e : Int) := by
    split <;> omega
  have hmin2 : (if ((b.start : Int) + (b.size : Int)) < (e : Int)
      then ((b.start : Int) + (b.size : Int)) else (e : Int)) =
      min ((b.start : Int) + (b.size : Int)) (e : Int) := by
    split <;> omega
  unfold fillMaskBlock
  dsimp only
  rw [hmin1, hmin2]
  split
  · rw [List.length_append, List.length_map, jsSubstring_length,
      jsSubstringFrom_length, hlen]
    omega
  · rw [List.length_append, List.length_append, List.length_map, jsSubstring_length,
      jsSubstring_length, jsSubstringFrom_length, hlen]
    omega

theorem applyBlocks_fillN_length (s e : Nat) (hse : s ≤ e) :
    ∀ (blocks : List TbBlock) (cseq : List Char) (i : Nat),
      cseq.length = e - s →
      (∀ b ∈ blocks, b.start ≤ e ∧ s ≤ b.start + b.size) →
      List.Pairwise (fun b1 b2 : TbBlock => b1.start + b1.size ≤ b2.start) blocks →
      (i = 0 ∨ ∀ b ∈ blocks, s ≤ b.start) →
      (applyBlocks (fillNBlock (s : Int) (e : Int)) cseq i blocks).length = e - s := by
  intro blocks
  induction blocks with
  | nil => intro cseq i hlen _ _ _; exact hlen
  | cons b rest ih =>
    intro cseq i hlen hmem hpw hpos
    rw [applyBlocks]
    have hstep : (fillNBlock (s : Int) (e : Int) cseq i b).length = e - s :=
      fillNBlock_length s e cseq i b hse hlen
        (hmem b (List.mem_cons_self _ _)).1 (hmem b (List.mem_cons_self _ _)).2
        (hpos.imp id (fun h => h b (List.mem_cons_self _ _)))
    have hrest : ∀ b' ∈ rest, s ≤ b'.start := by
      intro b' hb'
      have h1 := (hmem b (List.mem_cons_self _ _)).2
      have h2 := List.rel_of_pairwise_cons hpw hb'
      omega
    exact ih _ (i + 1) hstep (fun b' hb' => hmem b' (List.mem_cons_of_mem _ hb'))
      hpw.tail (Or.inr hrest)

theorem applyBlocks_fillMask_length (s e : Nat) (hse : s ≤ e) :
    ∀ (blocks : List TbBlock) (cseq : List Char) (i : Nat),
      cseq.length = e - s →
      (applyBlocks (fillMaskBlock (s : Int) (e : Int)) cseq i blocks).length = e - s := by
  intro blocks
  induction blocks with
  | nil => intro cseq i hlen; exact hlen
  | cons b rest ih =>
    intro cseq i hlen
    rw [applyBlocks]
    exact ih _ (i + 1) (fillMaskBlock_length s e cseq i b hse hlen)

/-- C1 (amended): for a query `[start, end)` with `start < end` that lies
wholly inside a single non-N region (every N-block is sorted,
non-overlapping, and disjoint from the interval), the string returned by
`loadSequence` has length `end − (start − 1)`: that is `end − start + 1` for
`start ≥ 1` (one more than the claimed `end − start`, because the source
first replaces `start` by `start − 1`), and `end − start` for `start = 0`. -/
theorem loadSequence_length (file : Nat → Nat) (rec : SequenceRecord) (start0 endq : Nat)
    (h1 : start0 < endq)
    (hsorted : List.Pairwise (fun p q : Nat × Nat => p.1 + p.2 ≤ q.1)
      (rec.nBlockStarts.zip rec.nBlockSizes))
    (_hdisj : ∀ p ∈ rec.nBlockStarts.zip rec.nBlockSizes,
      p.1 + p.2 ≤ start0 ∨ endq ≤ p.1) :
    (loadSequence file rec start0 endq).length = endq - (start0 - 1) := by
  have hse : start0 - 1 ≤ endq := by omega
  unfold loadSequence
  apply applyBlocks_fillMask_length _ _ hse
  apply applyBlocks_fillN_length _ _ hse
  · rw [jsSubstring_length,
      range_flatMap_getBases_length (fun j => file ((start0 - 1) / 4 + rec.offset + j))]
    by_cases hmod : (start0 - 1) % 4 = 0
    · rw [if_pos hmod]
      omega
    · rw [if_neg hmod]
      omega
  · exact collectNBlocks_mem _ _ _
  · exact (List.pairwise_map.mpr hsorted).sublist (collectNBlocks_sublist _ _ _)
  · exact Or.inl rfl

/-- C1, witness: the amended length at a record with no blocks and the query
`[2, 10)` — the returned string has `10 − (2 − 1) = 9` characters. -/
theorem loadSequence_length_witness :
    (loadSequence (fun _ => 0) tbRecPlain 2 10).length = 10 - (2 - 1) :=
  loadSequence_length (fun _ => 0) tbRecPlain 2 10 (by decide)
    (by decide) (by decide)
